import Mathlib

/-!
Verification of the keyframe-curve merging core (`pyimpl.py`).

The source manipulates lists of `(frame, value)` samples ("keyframes") of
piecewise-linear animation curves.  Its operations are embedded here over exact
rational numbers:

* `findOverlap` — the trailing-overlap scan (raises `ValueError`, modelled as
  `PyError.invalidOrder`, when the first curve starts after the second);
* `getValue` — linear interpolation between two keyframes with the
  divide-by-zero fallback of the `try/except` block;
* `interval` — bracket selection; the Python function can fall off the end of
  its loop and implicitly return `None`, which the caller then fails to unpack
  (a `TypeError`); this outcome is modelled as `IntervalResult.implicitNone`;
* `addKeyframes` — the mutating merge.  Mutation is rendered by returning the
  final states of both lists; when an exception is raised, the error carries
  the states both lists have at the raise site.  `keysOverlapping` is an
  aliased view of the trailing suffix of `insertedKeys` (the scan collects a
  reversed prefix of `insertedKeys.reverse`), so the in-place `+=` on the
  overlap keys is rendered by replacing that suffix; Python `list.sort` with a
  key function is the stable ascending sort by `frame`, rendered by
  `List.insertionSort` (stable) over the `frame`-ordering.
-/

/-- A keyframe: a `(frame, value)` sample of an animation curve
(`class Keyframe` of the source, with exact rational coordinates). -/
structure Keyframe where
  frame : ℚ
  value : ℚ
deriving DecidableEq

/-- Exceptions the Python code can raise: the explicit `ValueError` of
`findOverlap`, and the `TypeError` from unpacking the implicit `None`
returned when `interval` falls off the end of its loop. -/
inductive PyError where
  | invalidOrder : PyError
  | typeError : PyError
deriving DecidableEq

/-- Possible results of `interval`: the explicit `(None, None)`, a pair of
keyframes, or the implicit `None` of a fall-through return. -/
inductive IntervalResult where
  | noneNone : IntervalResult
  | pair : Keyframe → Keyframe → IntervalResult
  | implicitNone : IntervalResult
deriving DecidableEq

/-- The `for key1 in reversed(keyList1)` loop of `findOverlap`, lines 33-45:
walks the reversed list, collecting keys strictly beyond `b0`; on the first
key at or before `b0` it keeps that one boundary key only if the
`overlapping` flag was set, then breaks. -/
def scanRev (b0 : ℚ) : Bool → List Keyframe → List Keyframe
  | _, [] => []
  | overlapping, key1 :: rest =>
    if b0 < key1.frame then key1 :: scanRev b0 true rest
    else if overlapping then [key1] else []

/-- Lines 25-45 of the source: empty input gives `[]`; a first keyframe of
`keyList1` beyond the first keyframe of `keyList2` raises `ValueError`;
otherwise the reversed scan is collected and reversed back. -/
def findOverlap (keyList1 keyList2 : List Keyframe) : Except PyError (List Keyframe) :=
  match keyList1, keyList2 with
  | [], _ => .ok []
  | _, [] => .ok []
  | k1 :: l1, k2 :: _ =>
    if k2.frame < k1.frame then .error .invalidOrder
    else .ok (scanRev k2.frame false ((k1 :: l1).reverse)).reverse

/-- Lines 48-65: linear interpolation through `key1` and `key2`; the
`try/except ZeroDivisionError` sets the slope to `0` exactly when
`key2.frame - key1.frame = 0`, rendered as the explicit branch. -/
def getValue (key1 key2 : Keyframe) (frame : ℚ) : ℚ :=
  let m : ℚ :=
    if key2.frame - key1.frame = 0 then 0
    else (key2.value - key1.value) / (key2.frame - key1.frame)
  let c : ℚ := key1.value - m * key1.frame
  m * frame + c

/-- The `for i in range(len(keyList) - 1)` loop of `interval`, lines 93-95:
returns the first adjacent pair bracketing `frame`, and the implicit `None`
when the loop completes without returning. -/
def intervalLoop : List Keyframe → ℚ → IntervalResult
  | k1 :: k2 :: rest, frame =>
    if k1.frame ≤ frame ∧ frame ≤ k2.frame then .pair k1 k2
    else intervalLoop (k2 :: rest) frame
  | _, _ => .implicitNone

/-- Lines 84-95: `(None, None)` on an empty list, a doubled first (last)
keyframe left (right) of the list's range, otherwise the bracket loop. -/
def interval (keyList : List Keyframe) (frame : ℚ) : IntervalResult :=
  match keyList with
  | [] => .noneNone
  | k0 :: rest =>
    if frame < k0.frame then .pair k0 k0
    else if ((k0 :: rest).getLast (List.cons_ne_nil k0 rest)).frame < frame then
      .pair ((k0 :: rest).getLast (List.cons_ne_nil k0 rest))
            ((k0 :: rest).getLast (List.cons_ne_nil k0 rest))
    else intervalLoop (k0 :: rest) frame

/-- The interpolation loops of `addKeyframes`, lines 115-118 and 120-123:
for each target key, bracket it in `src`; skip it on `(None, None)`, fail
with the unpacking `TypeError` on an implicit `None`, otherwise record a
keyframe holding the interpolated value at that frame. -/
def interpolatedValues (src : List Keyframe) : List Keyframe → Except PyError (List Keyframe)
  | [] => .ok []
  | key :: rest =>
    match interval src key.frame with
    | .noneNone => interpolatedValues src rest
    | .implicitNone => .error .typeError
    | .pair inv1 inv2 =>
      match interpolatedValues src rest with
      | .error e => .error e
      | .ok r => .ok (⟨key.frame, getValue inv1 inv2 key.frame⟩ :: r)

/-- The `key.value += interp.value` loops, lines 126-130: `zip` pairs the
keys with the recorded values positionally and stops at the shorter list;
keys beyond it are unchanged. -/
def bumpValues (keys interps : List Keyframe) : List Keyframe :=
  (List.zipWith (fun k i => ⟨k.frame, k.value + i.value⟩) keys interps) ++ keys.drop interps.length

/-- Frame ordering used by `insertedKeys.sort(key=lambda keyframe: keyframe.frame)`. -/
def frLe (a b : Keyframe) : Prop := a.frame ≤ b.frame

instance : DecidableRel frLe := fun a b => (inferInstance : Decidable (a.frame ≤ b.frame))

instance : IsTotal Keyframe frLe := ⟨fun a b => le_total a.frame b.frame⟩

instance : IsTrans Keyframe frLe := ⟨fun _ _ _ h1 h2 => le_trans h1 h2⟩

/-- Lines 97-141 (`addKeyframes`).  The two final states `(insertedKeys,
nextKeys)` are returned; an error carries the states at the raise site (both
raise sites precede every mutation).  The overlap keys alias the trailing
suffix of `insertedKeys` (see `findOverlap_suffix` below), so their in-place
update replaces that suffix; `extend` then appends the updated `nextKeys`,
and the stable ascending sort by `frame` is `List.insertionSort frLe`. -/
def addKeyframes (insertedKeys nextKeys : List Keyframe) :
    Except (PyError × List Keyframe × List Keyframe) (List Keyframe × List Keyframe) :=
  match findOverlap insertedKeys nextKeys with
  | .error e => .error (e, insertedKeys, nextKeys)
  | .ok keysOverlapping =>
    match interpolatedValues keysOverlapping nextKeys with
    | .error e => .error (e, insertedKeys, nextKeys)
    | .ok nextKeysInterpolatedValues =>
      match interpolatedValues nextKeys keysOverlapping with
      | .error e => .error (e, insertedKeys, nextKeys)
      | .ok insertedKeysInterpolatedValues =>
        let keysOverlapping1 := bumpValues keysOverlapping insertedKeysInterpolatedValues
        let insertedKeys1 :=
          insertedKeys.take (insertedKeys.length - keysOverlapping.length) ++ keysOverlapping1
        let nextKeys1 := bumpValues nextKeys nextKeysInterpolatedValues
        .ok (List.insertionSort frLe (insertedKeys1 ++ nextKeys1), nextKeys1)

/-- A curve sorted non-decreasing by time. -/
def sortedLe (l : List Keyframe) : Prop := List.Pairwise frLe l

/-- A well-formed curve of the spec: strictly increasing sample times. -/
def sortedLt (l : List Keyframe) : Prop := List.Pairwise (fun a b => a.frame < b.frame) l

/-- Modelled from the spec: the mathematical value of a piecewise-linear
curve at a time, per the data-model section — linear interpolation between
the bracketing samples, constant (nearest endpoint's value) outside the
curve's domain.  The interpolation along a segment reuses the source's
two-point formula `getValue`.  This is the specification-side evaluator the
sum-correctness claim compares the code against. -/
def specValueAt : List Keyframe → ℚ → ℚ
  | [], _ => 0
  | [k], _ => k.value
  | k1 :: k2 :: rest, t =>
    if t ≤ k1.frame then k1.value
    else if t ≤ k2.frame then getValue k1 k2 t
    else specValueAt (k2 :: rest) t

/-- Shorthand for the value the merge adds: the source's bracket-then-
interpolate composition, as used at each key of the interpolation loops. -/
def bracketValue (src : List Keyframe) (t : ℚ) : ℚ :=
  match interval src t with
  | .pair k1 k2 => getValue k1 k2 t
  | _ => 0

theorem getValue_left (key1 key2 : Keyframe) : getValue key1 key2 key1.frame = key1.value := by
  unfold getValue
  by_cases h : key2.frame - key1.frame = 0
  · simp [h]
  · simp only [if_neg h]
    ring

theorem getValue_right (key1 key2 : Keyframe) (h : key1.frame ≠ key2.frame) :
    getValue key1 key2 key2.frame = key2.value := by
  have hd : key2.frame - key1.frame ≠ 0 := sub_ne_zero.mpr (Ne.symm h)
  unfold getValue
  simp only [hd, if_neg hd]
  field_simp
  ring

theorem scanRev_true_eq (b0 : ℚ) (l : List Keyframe) :
    scanRev b0 true l =
      l.takeWhile (fun k => decide (b0 < k.frame)) ++
        (l.dropWhile (fun k => decide (b0 < k.frame))).take 1 := by
  induction l with
  | nil => rfl
  | cons k rest ih =>
    by_cases h : b0 < k.frame
    · simp [scanRev, h, List.takeWhile_cons, List.dropWhile_cons, ih]
    · simp [scanRev, h, List.takeWhile_cons, List.dropWhile_cons]

theorem scanRev_false_eq (b0 : ℚ) (l : List Keyframe) :
    scanRev b0 false l =
      if l.takeWhile (fun k => decide (b0 < k.frame)) = [] then []
      else l.takeWhile (fun k => decide (b0 < k.frame)) ++
        (l.dropWhile (fun k => decide (b0 < k.frame))).take 1 := by
  cases l with
  | nil => rfl
  | cons k rest =>
    by_cases h : b0 < k.frame
    · simp [scanRev, h, List.takeWhile_cons, List.dropWhile_cons, scanRev_true_eq]
    · simp [scanRev, h, List.takeWhile_cons]

theorem scanRev_prefix (b0 : ℚ) (f : Bool) (l : List Keyframe) :
    ∃ v, l = scanRev b0 f l ++ v := by
  induction l generalizing f with
  | nil => exact ⟨[], rfl⟩
  | cons k rest ih =>
    by_cases h : b0 < k.frame
    · obtain ⟨v, hv⟩ := ih true
      refine ⟨v, ?_⟩
      simp only [scanRev, if_pos h, List.cons_append]
      exact congrArg (List.cons k) hv
    · cases f
      · exact ⟨k :: rest, by simp [scanRev, h]⟩
      · exact ⟨rest, by simp [scanRev, h]⟩

theorem findOverlap_ok_cons (k1 k2 : Keyframe) (l1 l2 : List Keyframe)
    (h : ¬ k2.frame < k1.frame) :
    findOverlap (k1 :: l1) (k2 :: l2) =
      .ok (scanRev k2.frame false ((k1 :: l1).reverse)).reverse := by
  simp [findOverlap, h]

theorem findOverlap_err_cons (k1 k2 : Keyframe) (l1 l2 : List Keyframe)
    (h : k2.frame < k1.frame) :
    findOverlap (k1 :: l1) (k2 :: l2) = .error .invalidOrder := by
  simp [findOverlap, h]

theorem findOverlap_nil_right (A : List Keyframe) : findOverlap A [] = .ok [] := by
  cases A <;> rfl

theorem findOverlap_suffix (A B ov : List Keyframe) (h : findOverlap A B = .ok ov) :
    ∃ u, A = u ++ ov := by
  cases A with
  | nil =>
    simp [findOverlap] at h
    exact ⟨[], by simp [h]⟩
  | cons k1 l1 =>
    cases B with
    | nil =>
      simp [findOverlap] at h
      exact ⟨k1 :: l1, by simp [h]⟩
    | cons k2 l2 =>
      by_cases hf : k2.frame < k1.frame
      · simp [findOverlap, hf] at h
      · rw [findOverlap_ok_cons k1 k2 l1 l2 hf] at h
        injection h with h
        obtain ⟨v, hv⟩ := scanRev_prefix k2.frame false ((k1 :: l1).reverse)
        have hA := congrArg List.reverse hv
        rw [List.reverse_reverse, List.reverse_append] at hA
        rw [h] at hA
        exact ⟨v.reverse, hA⟩

theorem interval_nil (frame : ℚ) : interval [] frame = .noneNone := rfl

theorem intervalLoop_ne_noneNone (l : List Keyframe) (frame : ℚ) :
    intervalLoop l frame ≠ .noneNone := by
  induction l with
  | nil => simp [intervalLoop]
  | cons k rest ih =>
    cases rest with
    | nil => simp [intervalLoop]
    | cons k2 r2 =>
      by_cases h : k.frame ≤ frame ∧ frame ≤ k2.frame
      · simp [intervalLoop, h]
      · simpa [intervalLoop, h] using ih

theorem interval_cons_ne_noneNone (k : Keyframe) (rest : List Keyframe) (frame : ℚ) :
    interval (k :: rest) frame ≠ .noneNone := by
  simp only [interval]
  split
  · simp
  · split
    · simp
    · exact intervalLoop_ne_noneNone _ _

theorem interpolatedValues_nil_src (tgt : List Keyframe) :
    interpolatedValues [] tgt = .ok [] := by
  induction tgt with
  | nil => rfl
  | cons key rest ih => simp [interpolatedValues, interval_nil, ih]

theorem interpolatedValues_error_ty (src tgt : List Keyframe) (e : PyError)
    (h : interpolatedValues src tgt = .error e) : e = .typeError := by
  induction tgt with
  | nil => simp [interpolatedValues] at h
  | cons key rest ih =>
    simp only [interpolatedValues] at h
    cases hi : interval src key.frame with
    | noneNone => rw [hi] at h; exact ih h
    | implicitNone =>
      rw [hi] at h
      simp at h
      exact h.symm
    | pair inv1 inv2 =>
      rw [hi] at h
      cases hr : interpolatedValues src rest with
      | error e2 =>
        rw [hr] at h
        simp at h
        rw [h] at hr
        exact ih hr
      | ok r => rw [hr] at h; simp at h

theorem sortedLe_of_sortedLt (l : List Keyframe) (h : sortedLt l) : sortedLe l :=
  h.imp (fun hab => le_of_lt hab)

theorem sortedLt_frame_inj : ∀ (l : List Keyframe), sortedLt l →
    ∀ a ∈ l, ∀ b ∈ l, a.frame = b.frame → a = b := by
  intro l
  induction l with
  | nil => simp
  | cons k rest ih =>
    intro h a ha b hb hab
    rw [sortedLt, List.pairwise_cons] at h
    rcases List.mem_cons.mp ha with rfl | ha2 <;> rcases List.mem_cons.mp hb with rfl | hb2
    · rfl
    · exact absurd (h.1 b hb2) (by rw [hab]; exact lt_irrefl _)
    · exact absurd (h.1 a ha2) (by rw [hab.symm]; exact lt_irrefl _)
    · exact ih h.2 a ha2 b hb2 hab

/-- C8: when the two keyframes share the same frame, `getValue` takes the
division-by-zero fallback (slope `0`), raises nothing, and returns exactly
the first keyframe's value, for every query frame. -/
theorem getValue_degenerate_flat (key1 key2 : Keyframe) (t : ℚ)
    (h : key1.frame = key2.frame) : getValue key1 key2 t = key1.value := by
  have hz : key2.frame - key1.frame = 0 := by rw [h]; ring
  unfold getValue
  simp [hz]

/-- Witness for C8 at the concrete doubled-boundary bracket `((1,2),(1,3))`. -/
theorem getValue_degenerate_flat_witness : getValue ⟨1, 2⟩ ⟨1, 3⟩ 7 = 2 :=
  getValue_degenerate_flat ⟨1, 2⟩ ⟨1, 3⟩ 7 rfl

/-- C3 (refuting evidence): on the well-formed sorted curves
`[(5,0),(7,1)]` and `[(5,2)]`, the bracket lookup `interval [(5,2)] 5`
falls off its loop and implicitly returns `None` (not a pair), and
`merge` consequently fails with the unpacking `TypeError` — an error other
than `InvalidOrderError` — instead of completing normally. -/
theorem interval_singleton_fallthrough :
    interval [⟨5, 2⟩] 5 = .implicitNone ∧
    addKeyframes [⟨5, 0⟩, ⟨7, 1⟩] [⟨5, 2⟩] =
      .error (.typeError, [⟨5, 0⟩, ⟨7, 1⟩], [⟨5, 2⟩]) ∧
    sortedLt [⟨5, 0⟩, ⟨7, 1⟩] ∧ sortedLt [⟨5, 2⟩] := by
  refine ⟨?_, ?_, ?_, ?_⟩
  · norm_num [interval, intervalLoop]
  · norm_num [addKeyframes, findOverlap, scanRev, getValue, intervalLoop, interval,
      interpolatedValues, bumpValues, frLe, List.insertionSort, List.orderedInsert]
  · norm_num [sortedLt]
  · norm_num [sortedLt]

theorem bumpValues_nil (keys : List Keyframe) : bumpValues keys [] = keys := by
  simp [bumpValues]

theorem addKeyframes_nil_left (B : List Keyframe) :
    addKeyframes [] B = .ok (List.insertionSort frLe B, B) := by
  have hfo : findOverlap [] B = .ok [] := by cases B <;> rfl
  simp [addKeyframes, hfo, interpolatedValues_nil_src, interpolatedValues, bumpValues_nil]

theorem addKeyframes_nil_right (A : List Keyframe) :
    addKeyframes A [] = .ok (List.insertionSort frLe A, []) := by
  have hfo : findOverlap A [] = .ok [] := findOverlap_nil_right A
  simp [addKeyframes, hfo, interpolatedValues_nil_src, interpolatedValues, bumpValues_nil]

/-- C7: merging the empty curve into any curve raises nothing and at most
re-sorts: it returns each original sample with value unchanged (a
permutation of the curve), and on an already-sorted curve it is a complete
no-op (same samples, same order, same values). -/
theorem merge_empty_identity (curve : List Keyframe) :
    addKeyframes curve [] = .ok (List.insertionSort frLe curve, []) ∧
    (List.insertionSort frLe curve).Perm curve ∧
    (sortedLe curve → List.insertionSort frLe curve = curve) :=
  ⟨addKeyframes_nil_right curve, List.perm_insertionSort frLe curve,
   fun h => List.Sorted.insertionSort_eq h⟩

/-- Witness for C7 on a concrete already-sorted curve. -/
theorem merge_empty_identity_witness :
    addKeyframes [⟨0, 1⟩, ⟨2, 3⟩] [] = .ok ([⟨0, 1⟩, ⟨2, 3⟩], []) := by
  have h := merge_empty_identity [⟨0, 1⟩, ⟨2, 3⟩]
  have hs : sortedLe [⟨0, 1⟩, ⟨2, 3⟩] := by norm_num [sortedLe, frLe]
  have h1 := h.1
  rw [h.2.2 hs] at h1
  exact h1

/-- C4: on two non-empty curves, `merge` raises `InvalidOrderError`
(`ValueError`) exactly when the first inserted keyframe's frame exceeds
the first next keyframe's frame; with either curve empty, no error is
raised. -/
theorem merge_invalid_order_iff :
    (∀ (a b : Keyframe) (l1 l2 : List Keyframe),
      (∃ s, addKeyframes (a :: l1) (b :: l2) = .error (.invalidOrder, s)) ↔
        b.frame < a.frame) ∧
    (∀ A B : List Keyframe, A = [] ∨ B = [] → ∃ r, addKeyframes A B = .ok r) := by
  constructor
  · intro a b l1 l2
    constructor
    · rintro ⟨s, hs⟩
      by_contra hab
      have hfo := findOverlap_ok_cons a b l1 l2 hab
      simp only [addKeyframes, hfo] at hs
      cases h1 : interpolatedValues ((scanRev b.frame false ((a :: l1).reverse)).reverse)
          (b :: l2) with
      | error e =>
        rw [h1] at hs
        have he := interpolatedValues_error_ty _ _ _ h1
        rw [he] at hs
        simp at hs
      | ok nI =>
        rw [h1] at hs
        cases h2 : interpolatedValues (b :: l2)
            ((scanRev b.frame false ((a :: l1).reverse)).reverse) with
        | error e =>
          rw [h2] at hs
          have he := interpolatedValues_error_ty _ _ _ h2
          rw [he] at hs
          simp at hs
        | ok iI =>
          rw [h2] at hs
          simp at hs
    · intro hab
      refine ⟨(a :: l1, b :: l2), ?_⟩
      simp only [addKeyframes, findOverlap_err_cons a b l1 l2 hab]
  · rintro A B (rfl | rfl)
    · exact ⟨_, addKeyframes_nil_left B⟩
    · exact ⟨_, addKeyframes_nil_right A⟩

/-- Witness for C4: an out-of-order pair raises, and an empty first curve
merges without error. -/
theorem merge_invalid_order_iff_witness :
    (∃ s, addKeyframes [⟨1, 0⟩] [⟨0, 0⟩] = .error (.invalidOrder, s)) ∧
    (∃ r, addKeyframes [] [⟨0, 0⟩] = .ok r) :=
  ⟨(merge_invalid_order_iff.1 ⟨1, 0⟩ ⟨0, 0⟩ [] []).mpr (by norm_num : (0 : ℚ) < 1),
   merge_invalid_order_iff.2 [] [⟨0, 0⟩] (Or.inl rfl)⟩

/-- C9: whenever `merge` raises `InvalidOrderError` (`ValueError`), the
raise happens inside `findOverlap`, before any value addition, append or
sort, and both curves are exactly unchanged at that point. -/
theorem merge_error_atomic (A B s1 s2 : List Keyframe)
    (h : addKeyframes A B = .error (.invalidOrder, s1, s2)) :
    s1 = A ∧ s2 = B ∧ findOverlap A B = .error .invalidOrder := by
  cases hfo : findOverlap A B with
  | error e =>
    simp only [addKeyframes, hfo] at h
    simp only [Except.error.injEq, Prod.mk.injEq] at h
    obtain ⟨he, h1, h2⟩ := h
    exact ⟨h1.symm, h2.symm, by rw [he]⟩
  | ok ov =>
    simp only [addKeyframes, hfo] at h
    cases h1 : interpolatedValues ov B with
    | error e =>
      rw [h1] at h
      have he := interpolatedValues_error_ty _ _ _ h1
      rw [he] at h
      simp at h
    | ok nI =>
      rw [h1] at h
      cases h2 : interpolatedValues B ov with
      | error e =>
        rw [h2] at h
        have he := interpolatedValues_error_ty _ _ _ h2
        rw [he] at h
        simp at h
      | ok iI =>
        rw [h2] at h
        simp at h

/-- Witness for C9 at a concrete out-of-order input. -/
theorem merge_error_atomic_witness :
    ([⟨1, 0⟩] : List Keyframe) = [⟨1, 0⟩] ∧ ([⟨0, 0⟩] : List Keyframe) = [⟨0, 0⟩] ∧
      findOverlap [⟨1, 0⟩] [⟨0, 0⟩] = .error .invalidOrder :=
  merge_error_atomic [⟨1, 0⟩] [⟨0, 0⟩] [⟨1, 0⟩] [⟨0, 0⟩] (by
    simp only [addKeyframes,
      findOverlap_err_cons ⟨1, 0⟩ ⟨0, 0⟩ [] [] (by norm_num : (0 : ℚ) < 1)])

theorem dropWhile_head_false {p : Keyframe → Bool} :
    ∀ (l : List Keyframe) (a : Keyframe) (t : List Keyframe),
      l.dropWhile p = a :: t → p a = false := by
  intro l
  induction l with
  | nil => intro a t h; simp [List.dropWhile] at h
  | cons x xs ih =>
    intro a t h
    rw [List.dropWhile_cons] at h
    by_cases hx : p x = true
    · rw [if_pos hx] at h
      exact ih a t h
    · rw [if_neg hx] at h
      injection h with h1 _
      rw [← h1]
      simpa using hx

theorem takeWhile_eq_filter_of_pairwise {α : Type} (p : α → Bool) :
    ∀ (l : List α), l.Pairwise (fun a b => p b = true → p a = true) →
      l.takeWhile p = l.filter p := by
  intro l
  induction l with
  | nil => intro _; rfl
  | cons a l ih =>
    intro h
    rw [List.pairwise_cons] at h
    by_cases ha : p a = true
    · rw [List.takeWhile_cons, List.filter_cons, if_pos ha, if_pos ha]
      exact congrArg (List.cons a) (ih h.2)
    · rw [List.takeWhile_cons, List.filter_cons, if_neg ha, if_neg ha]
      symm
      rw [List.filter_eq_nil_iff]
      intro b hb hpb
      exact ha (h.1 b hb hpb)

theorem dropWhile_reverse_ne_nil (a : Keyframe) (l1 : List Keyframe) (b0 : ℚ)
    (h0 : a.frame ≤ b0) :
    ((a :: l1).reverse).dropWhile (fun k => decide (b0 < k.frame)) ≠ [] := by
  intro hd
  have htw : (a :: l1).reverse.takeWhile (fun k => decide (b0 < k.frame)) =
      (a :: l1).reverse := by
    conv_rhs => rw [← List.takeWhile_append_dropWhile
      (fun k => decide (b0 < k.frame)) ((a :: l1).reverse)]
    rw [hd, List.append_nil]
  have ha_mem : a ∈ (a :: l1).reverse.takeWhile (fun k => decide (b0 < k.frame)) := by
    rw [htw]
    simp
  have hlt := List.mem_takeWhile_imp ha_mem
  simp at hlt
  exact absurd h0 (not_le.mpr hlt)

/-- C10: on non-empty curves sorted ascending with the precondition
satisfied, `findOverlap` never returns exactly one sample: its result is
empty or has at least two samples. -/
theorem findOverlap_not_singleton (a b : Keyframe) (l1 l2 : List Keyframe)
    (_hA : sortedLe (a :: l1)) (_hB : sortedLe (b :: l2))
    (h0 : a.frame ≤ b.frame) :
    ∃ l, findOverlap (a :: l1) (b :: l2) = .ok l ∧ (l = [] ∨ 2 ≤ l.length) := by
  have hfo := findOverlap_ok_cons a b l1 l2 (not_lt.mpr h0)
  refine ⟨_, hfo, ?_⟩
  rw [scanRev_false_eq]
  by_cases htw : ((a :: l1).reverse).takeWhile (fun k => decide (b.frame < k.frame)) = []
  · left
    rw [if_pos htw]
    rfl
  · right
    rw [if_neg htw]
    have hdw := dropWhile_reverse_ne_nil a l1 b.frame h0
    cases hdc : ((a :: l1).reverse).dropWhile (fun k => decide (b.frame < k.frame)) with
    | nil => exact absurd hdc hdw
    | cons x xs =>
      have hpos : 1 ≤ ((a :: l1).reverse.takeWhile
          (fun k => decide (b.frame < k.frame))).length := List.length_pos.mpr htw
      have hlen : (List.take 1 (x :: xs)).length = 1 := by simp
      simp only [List.length_reverse, List.length_append, hlen]
      omega

/-- Witness for C10 on concrete curves with a genuine overlap. -/
theorem findOverlap_not_singleton_witness :
    ∃ l, findOverlap [⟨0, 0⟩, ⟨2, 2⟩] [⟨1, 0⟩, ⟨3, 2⟩] = .ok l ∧
      (l = [] ∨ 2 ≤ l.length) :=
  findOverlap_not_singleton ⟨0, 0⟩ ⟨1, 0⟩ [⟨2, 2⟩] [⟨3, 2⟩]
    (by norm_num [sortedLe, frLe]) (by norm_num [sortedLe, frLe])
    (by norm_num : (0 : ℚ) ≤ 1)

theorem takeWhile_reverse_eq_filter (A : List Keyframe) (b0 : ℚ) (hA : sortedLe A) :
    A.reverse.takeWhile (fun k => decide (b0 < k.frame)) =
      (A.filter (fun k => decide (b0 < k.frame))).reverse := by
  have hpw : A.reverse.Pairwise
      (fun x y => decide (b0 < y.frame) = true → decide (b0 < x.frame) = true) := by
    rw [List.pairwise_reverse]
    refine hA.imp ?_
    intro x y hxy hby
    simp only [decide_eq_true_eq] at hby ⊢
    exact lt_of_lt_of_le hby hxy
  rw [takeWhile_eq_filter_of_pairwise _ _ hpw, List.filter_reverse]

/-- C5: characterization of `findOverlap` on sorted curves satisfying the
precondition.  The result is exactly the samples of the first curve whose
frame is strictly beyond the second curve's first frame, preceded by the
single sample of the first curve immediately before them (present exactly
when some strictly-greater sample exists), in ascending order; when the
first curve's last frame is at or before the second curve's first frame the
result is empty. -/
theorem findOverlap_characterization (a b : Keyframe) (l1 l2 : List Keyframe)
    (hA : sortedLe (a :: l1)) (_hB : sortedLe (b :: l2))
    (h0 : a.frame ≤ b.frame) :
    ∃ l, findOverlap (a :: l1) (b :: l2) = .ok l ∧
      (((a :: l1).getLast (List.cons_ne_nil a l1)).frame ≤ b.frame → l = []) ∧
      ((a :: l1).filter (fun k => decide (b.frame < k.frame)) = [] → l = []) ∧
      ((a :: l1).filter (fun k => decide (b.frame < k.frame)) ≠ [] →
        ∃ boundary u,
          (a :: l1) = u ++ boundary :: (a :: l1).filter (fun k => decide (b.frame < k.frame)) ∧
          boundary.frame ≤ b.frame ∧
          l = boundary :: (a :: l1).filter (fun k => decide (b.frame < k.frame))) := by
  have hfo := findOverlap_ok_cons a b l1 l2 (not_lt.mpr h0)
  have htwf := takeWhile_reverse_eq_filter (a :: l1) b.frame hA
  refine ⟨_, hfo, ?_, ?_, ?_⟩
  · -- last sample at or before b.frame: the reversed scan stops immediately
    intro hlast
    have hh : (a :: l1).reverse.head? =
        some ((a :: l1).getLast (List.cons_ne_nil a l1)) := by
      rw [List.head?_reverse]
      exact List.getLast?_eq_getLast (a :: l1) (List.cons_ne_nil a l1)
    have htw0 : (a :: l1).reverse.takeWhile (fun k => decide (b.frame < k.frame)) = [] := by
      cases hrc : (a :: l1).reverse with
      | nil => rfl
      | cons rh rt =>
        rw [hrc] at hh
        simp only [List.head?_cons, Option.some.injEq] at hh
        have hprh : ¬ b.frame < rh.frame := by
          rw [hh]
          exact not_lt.mpr hlast
        rw [List.takeWhile_cons, if_neg (by simpa using hprh)]
    rw [scanRev_false_eq, if_pos htw0]
    rfl
  · intro hfil
    rw [scanRev_false_eq]
    have htw0 : (a :: l1).reverse.takeWhile (fun k => decide (b.frame < k.frame)) = [] := by
      rw [htwf, hfil]
      rfl
    rw [if_pos htw0]
    rfl
  · intro hfil
    have htw : (a :: l1).reverse.takeWhile (fun k => decide (b.frame < k.frame)) ≠ [] := by
      rw [htwf]
      simpa using hfil
    have hdw := dropWhile_reverse_ne_nil a l1 b.frame h0
    cases hdc : ((a :: l1).reverse).dropWhile (fun k => decide (b.frame < k.frame)) with
    | nil => exact absurd hdc hdw
    | cons boundary v =>
      have hpb : decide (b.frame < boundary.frame) = false :=
        dropWhile_head_false _ boundary v hdc
      have hble : boundary.frame ≤ b.frame := by
        simpa using hpb
      have hsplit : (a :: l1).reverse =
          (a :: l1).reverse.takeWhile (fun k => decide (b.frame < k.frame)) ++ boundary :: v := by
        conv_lhs => rw [← List.takeWhile_append_dropWhile
          (fun k => decide (b.frame < k.frame)) ((a :: l1).reverse)]
        rw [hdc]
      refine ⟨boundary, v.reverse, ?_, hble, ?_⟩
      · have hthis := congrArg List.reverse hsplit
        rw [List.reverse_reverse, List.reverse_append, List.reverse_cons, htwf,
          List.reverse_reverse] at hthis
        have h2 : (v.reverse ++ [boundary]) ++
            (a :: l1).filter (fun k => decide (b.frame < k.frame)) =
            v.reverse ++ boundary ::
              (a :: l1).filter (fun k => decide (b.frame < k.frame)) := by
          simp [List.append_assoc]
        exact hthis.trans h2
      · rw [scanRev_false_eq, if_neg htw, hdc]
        have : List.take 1 (boundary :: v) = [boundary] := by simp
        rw [this, List.reverse_append, htwf, List.reverse_reverse]
        rfl

/-- Witness for C5 on concrete overlapping curves. -/
theorem findOverlap_characterization_witness :
    ∃ l, findOverlap [⟨0, 0⟩, ⟨2, 2⟩] [⟨1, 0⟩, ⟨3, 2⟩] = .ok l ∧
      (((⟨2, 2⟩ : Keyframe)).frame ≤ (1 : ℚ) → l = []) ∧
      (([⟨0, 0⟩, ⟨2, 2⟩] : List Keyframe).filter (fun k => decide ((1 : ℚ) < k.frame)) = [] →
        l = []) ∧
      (([⟨0, 0⟩, ⟨2, 2⟩] : List Keyframe).filter (fun k => decide ((1 : ℚ) < k.frame)) ≠ [] →
        ∃ boundary u,
          ([⟨0, 0⟩, ⟨2, 2⟩] : List Keyframe) = u ++ boundary ::
            ([⟨0, 0⟩, ⟨2, 2⟩] : List Keyframe).filter (fun k => decide ((1 : ℚ) < k.frame)) ∧
          boundary.frame ≤ (1 : ℚ) ∧
          l = boundary ::
            ([⟨0, 0⟩, ⟨2, 2⟩] : List Keyframe).filter (fun k => decide ((1 : ℚ) < k.frame))) :=
  findOverlap_characterization ⟨0, 0⟩ ⟨1, 0⟩ [⟨2, 2⟩] [⟨3, 2⟩]
    (by norm_num [sortedLe, frLe]) (by norm_num [sortedLe, frLe])
    (by norm_num : (0 : ℚ) ≤ 1)

theorem specValueAt_knot (t : ℚ) :
    ∀ (u : List Keyframe) (k : Keyframe) (v : List Keyframe),
      (∀ x ∈ u, x.frame < t) → k.frame = t →
      specValueAt (u ++ k :: v) t = k.value := by
  intro u
  induction u with
  | nil =>
    intro k v _ hk
    cases v with
    | nil => simp [specValueAt]
    | cons k2 v2 =>
      simp only [List.nil_append, specValueAt]
      rw [if_pos (le_of_eq hk.symm)]
  | cons x u1 ih =>
    intro k v hu hk
    have hx : x.frame < t := hu x (List.mem_cons_self x u1)
    cases u1 with
    | nil =>
      simp only [List.cons_append, List.nil_append, specValueAt]
      rw [if_neg (not_le.mpr hx), if_pos (le_of_eq hk.symm)]
      subst hk
      exact getValue_right x k (ne_of_lt hx)
    | cons y u2 =>
      have hy : y.frame < t := hu y (by simp)
      simp only [List.cons_append, specValueAt]
      rw [if_neg (not_le.mpr hx), if_neg (not_le.mpr hy)]
      exact ih k v (fun z hz => hu z (List.mem_cons_of_mem x hz)) hk

theorem specValueAt_unique (l : List Keyframe) (t : ℚ) (v : ℚ)
    (hs : sortedLe l) (hex : ∃ k, k ∈ l ∧ k.frame = t)
    (hval : ∀ k ∈ l, k.frame = t → k.value = v) :
    specValueAt l t = v := by
  obtain ⟨k0, hk0mem, hk0f⟩ := hex
  cases hdc : l.dropWhile (fun k => decide (k.frame < t)) with
  | nil =>
    exfalso
    have hl : l.takeWhile (fun k => decide (k.frame < t)) = l := by
      conv_rhs => rw [← List.takeWhile_append_dropWhile (fun k => decide (k.frame < t)) l]
      rw [hdc, List.append_nil]
    rw [← hl] at hk0mem
    have hplt := List.mem_takeWhile_imp hk0mem
    simp [hk0f] at hplt
  | cons w dwt =>
    have hl2 : l = l.takeWhile (fun k => decide (k.frame < t)) ++ w :: dwt := by
      conv_lhs => rw [← List.takeWhile_append_dropWhile (fun k => decide (k.frame < t)) l]
      rw [hdc]
    have hw := dropWhile_head_false l w dwt hdc
    have hwt : ¬ w.frame < t := by simpa using hw
    have hk0dw : k0 ∈ w :: dwt := by
      rw [hl2] at hk0mem
      rcases List.mem_append.mp hk0mem with htk | hdk
      · have := List.mem_takeWhile_imp htk
        simp [hk0f] at this
      · exact hdk
    have hsdw : List.Pairwise frLe (w :: dwt) := by
      have h2 : List.Pairwise frLe
          (l.takeWhile (fun k => decide (k.frame < t)) ++ w :: dwt) := by
        rw [← hl2]
        exact hs
      exact (List.pairwise_append.mp h2).2.1
    have hwk0 : w.frame ≤ k0.frame := by
      rcases List.mem_cons.mp hk0dw with rfl | hmem
      · exact le_refl _
      · exact (List.pairwise_cons.mp hsdw).1 k0 hmem
    have hwf : w.frame = t := le_antisymm (by rw [← hk0f]; exact hwk0) (not_lt.mp hwt)
    have hknot := specValueAt_knot t (l.takeWhile (fun k => decide (k.frame < t))) w dwt
      (fun x hx => by simpa using List.mem_takeWhile_imp hx) hwf
    rw [← hl2] at hknot
    rw [hknot]
    exact hval w (by rw [hl2]; exact List.mem_append_right _ (List.mem_cons_self w dwt)) hwf

theorem specValueAt_suffix (t : ℚ) :
    ∀ (u s : List Keyframe), sortedLt (u ++ s) → ∀ (hs : s ≠ []),
      (s.head hs).frame ≤ t → specValueAt (u ++ s) t = specValueAt s t := by
  intro u
  induction u with
  | nil => intro s _ hs _; rfl
  | cons x u1 ih =>
    intro s hsort hs hhead
    have hx : x.frame < t := by
      have hxh : x.frame < (s.head hs).frame :=
        (List.pairwise_cons.mp hsort).1 (s.head hs)
          (List.mem_append_right u1 (List.head_mem hs))
      exact lt_of_lt_of_le hxh hhead
    cases u1 with
    | nil =>
      cases s with
      | nil => exact absurd rfl hs
      | cons y s2 =>
        have hyle : y.frame ≤ t := by simpa using hhead
        by_cases hys : t ≤ y.frame
        · have hteq : t = y.frame := le_antisymm hys hyle
          simp only [List.nil_append, List.cons_append, specValueAt]
          rw [if_neg (not_le.mpr hx), if_pos hys]
          have hrhs : specValueAt (y :: s2) t = y.value :=
            specValueAt_knot t [] y s2 (by simp) hteq.symm
          rw [hrhs]
          subst hteq
          exact getValue_right x y (ne_of_lt hx)
        · simp only [List.nil_append, List.cons_append, specValueAt]
          rw [if_neg (not_le.mpr hx), if_neg hys]
    | cons z u2 =>
      have hz : z.frame < t := by
        have hzt : z.frame < (s.head hs).frame :=
          (List.pairwise_cons.mp (List.pairwise_cons.mp hsort).2).1 (s.head hs)
            (List.mem_append_right u2 (List.head_mem hs))
        exact lt_of_lt_of_le hzt hhead
      simp only [List.cons_append, specValueAt]
      rw [if_neg (not_le.mpr hx), if_neg (not_le.mpr hz)]
      exact ih s (List.pairwise_cons.mp hsort).2 hs hhead

theorem intervalLoop_agree :
    ∀ (l : List Keyframe) (t : ℚ), sortedLe l → 2 ≤ l.length →
      ∀ (hne : l ≠ []), (l.head hne).frame ≤ t → t ≤ (l.getLast hne).frame →
      ∃ k1 k2, intervalLoop l t = .pair k1 k2 ∧ getValue k1 k2 t = specValueAt l t := by
  intro l
  induction l with
  | nil => intro t _ h2 _; simp at h2
  | cons ka tl ih =>
    intro t hs h2 hne hhd hlast
    cases tl with
    | nil => simp at h2
    | cons kb rest =>
      have hka : ka.frame ≤ t := by simpa using hhd
      have hab : ka.frame ≤ kb.frame :=
        (List.pairwise_cons.mp hs).1 kb (List.mem_cons_self kb rest)
      by_cases hbr : t ≤ kb.frame
      · refine ⟨ka, kb, ?_, ?_⟩
        · simp [intervalLoop, hka, hbr]
        · by_cases hak : t ≤ ka.frame
          · have hteq : t = ka.frame := le_antisymm hak hka
            simp only [specValueAt, if_pos hak]
            rw [hteq, getValue_left]
          · simp only [specValueAt, if_neg hak, if_pos hbr]
      · have hkbt : kb.frame ≤ t := (not_le.mp hbr).le
        have hrest_ne : rest ≠ [] := by
          intro hr
          subst hr
          have : (ka :: [kb]).getLast (by simp) = kb := rfl
          rw [this] at hlast
          exact hbr hlast
        have hlen2 : 2 ≤ (kb :: rest).length := by
          cases rest with
          | nil => exact absurd rfl hrest_ne
          | cons r rr => simp
        have hgl : ((ka :: kb :: rest).getLast hne) =
            ((kb :: rest).getLast (List.cons_ne_nil kb rest)) :=
          List.getLast_cons (List.cons_ne_nil kb rest)
        obtain ⟨k1, k2, hl, hv⟩ := ih t (List.pairwise_cons.mp hs).2 hlen2
          (List.cons_ne_nil kb rest) (by simpa using hkbt) (by rw [← hgl]; exact hlast)
        refine ⟨k1, k2, ?_, ?_⟩
        · have hcond : ¬ (ka.frame ≤ t ∧ t ≤ kb.frame) := by
            intro hc
            exact hbr hc.2
          simp only [intervalLoop, if_neg hcond]
          exact hl
        · have hnak : ¬ t ≤ ka.frame := not_le.mpr (lt_of_le_of_lt hab (not_le.mp hbr))
          simp only [specValueAt, if_neg hnak, if_neg hbr]
          exact hv

theorem interval_agree (l : List Keyframe) (t : ℚ) (hs : sortedLe l) (h2 : 2 ≤ l.length)
    (hne : l ≠ []) (hhd : (l.head hne).frame ≤ t) (hlast : t ≤ (l.getLast hne).frame) :
    ∃ k1 k2, interval l t = .pair k1 k2 ∧ getValue k1 k2 t = specValueAt l t := by
  obtain ⟨k1, k2, hl, hv⟩ := intervalLoop_agree l t hs h2 hne hhd hlast
  refine ⟨k1, k2, ?_, hv⟩
  cases l with
  | nil => exact absurd rfl hne
  | cons k0 rest =>
    have hk0 : k0.frame ≤ t := by simpa using hhd
    simp only [interval]
    rw [if_neg (not_lt.mpr hk0), if_neg (not_lt.mpr hlast)]
    exact hl

theorem interpolatedValues_ok_map (src : List Keyframe) (hsrc : src ≠ []) :
    ∀ (tgt L : List Keyframe), interpolatedValues src tgt = .ok L →
      (L = tgt.map (fun key => ⟨key.frame, bracketValue src key.frame⟩) ∧
       ∀ key ∈ tgt, ∃ k1 k2, interval src key.frame = .pair k1 k2) := by
  intro tgt
  induction tgt with
  | nil =>
    intro L h
    simp only [interpolatedValues, Except.ok.injEq] at h
    subst h
    exact ⟨rfl, by simp⟩
  | cons key rest ih =>
    intro L h
    simp only [interpolatedValues] at h
    cases hi : interval src key.frame with
    | noneNone =>
      exfalso
      cases src with
      | nil => exact hsrc rfl
      | cons s0 srest => exact interval_cons_ne_noneNone s0 srest key.frame hi
    | implicitNone =>
      rw [hi] at h
      simp at h
    | pair inv1 inv2 =>
      rw [hi] at h
      cases hr : interpolatedValues src rest with
      | error e =>
        rw [hr] at h
        simp at h
      | ok r =>
        rw [hr] at h
        simp only [Except.ok.injEq] at h
        obtain ⟨hmap, hall⟩ := ih r hr
        constructor
        · rw [← h]
          simp only [List.map_cons, hmap, bracketValue, hi]
        · intro k hk
          rcases List.mem_cons.mp hk with rfl | hk2
          · exact ⟨inv1, inv2, hi⟩
          · exact hall k hk2

theorem zipWith_map_self (f2 : Keyframe → Keyframe → Keyframe) (g : Keyframe → Keyframe) :
    ∀ (l : List Keyframe), List.zipWith f2 l (l.map g) = l.map (fun k => f2 k (g k)) := by
  intro l
  induction l with
  | nil => rfl
  | cons k rest ih => simp [List.zipWith, ih]

theorem bumpValues_map (g : Keyframe → Keyframe) (l : List Keyframe) :
    bumpValues l (l.map g) = l.map (fun k => ⟨k.frame, k.value + (g k).value⟩) := by
  unfold bumpValues
  rw [List.length_map, List.drop_length, List.append_nil]
  exact zipWith_map_self _ g l

theorem bumpValues_length (keys interps : List Keyframe) :
    (bumpValues keys interps).length = keys.length := by
  simp only [bumpValues, List.length_append, List.length_zipWith, List.length_drop]
  omega

theorem overlap_structure (A : List Keyframe) (b0 : ℚ) (hane : A ≠ [])
    (h0 : (A.head hane).frame ≤ b0) (hov : b0 < (A.getLast hane).frame) :
    ∃ boundary g, (scanRev b0 false A.reverse).reverse = boundary :: g ∧
      boundary.frame ≤ b0 ∧ g ≠ [] ∧
      (boundary :: g).getLast? = some (A.getLast hane) := by
  cases A with
  | nil => exact absurd rfl hane
  | cons a l1 =>
    have h0a : a.frame ≤ b0 := by simpa using h0
    have hh : (a :: l1).reverse.head? = some ((a :: l1).getLast (List.cons_ne_nil a l1)) := by
      rw [List.head?_reverse]
      exact List.getLast?_eq_getLast _ _
    cases hrc : (a :: l1).reverse with
    | nil => rw [hrc] at hh; simp at hh
    | cons rh rt =>
      rw [hrc] at hh
      simp only [List.head?_cons, Option.some.injEq] at hh
      have hprh : decide (b0 < rh.frame) = true := by
        simp only [decide_eq_true_eq]
        rw [hh]
        exact hov
      have hdw := dropWhile_reverse_ne_nil a l1 b0 h0a
      rw [hrc] at hdw
      cases hdc : (rh :: rt).dropWhile (fun k => decide (b0 < k.frame)) with
      | nil => exact absurd hdc hdw
      | cons boundary v =>
        have hpb := dropWhile_head_false _ boundary v hdc
        have hble : boundary.frame ≤ b0 := by simpa using hpb
        have htw : (rh :: rt).takeWhile (fun k => decide (b0 < k.frame)) =
            rh :: rt.takeWhile (fun k => decide (b0 < k.frame)) := by
          rw [List.takeWhile_cons, if_pos hprh]
        have hs : scanRev b0 false (rh :: rt) =
            (rh :: rt.takeWhile (fun k => decide (b0 < k.frame))) ++ [boundary] := by
          rw [scanRev_false_eq, if_neg (by rw [htw]; simp), htw, hdc]
          simp
        refine ⟨boundary, (rh :: rt.takeWhile (fun k => decide (b0 < k.frame))).reverse,
          ?_, hble, by simp, ?_⟩
        · rw [hs, List.reverse_append]
          simp
        · rw [← hh]
          have hb2 : boundary :: (rh :: rt.takeWhile (fun k => decide (b0 < k.frame))).reverse =
              ((rh :: rt.takeWhile (fun k => decide (b0 < k.frame))) ++ [boundary]).reverse := by
            rw [List.reverse_append]
            simp
          rw [hb2, List.getLast?_reverse]
          simp

/-- C6: when `merge` accepts two sorted curves and returns normally, the
merged curve is sorted non-decreasing by time and its length is the sum of
the two original lengths. -/
theorem merge_count_sorted (A B M B1 : List Keyframe)
    (_hA : sortedLe A) (_hB : sortedLe B)
    (hok : addKeyframes A B = .ok (M, B1)) :
    sortedLe M ∧ M.length = A.length + B.length := by
  cases hfo : findOverlap A B with
  | error e => simp [addKeyframes, hfo] at hok
  | ok ov =>
    simp only [addKeyframes, hfo] at hok
    cases h1 : interpolatedValues ov B with
    | error e => rw [h1] at hok; simp at hok
    | ok nI =>
      rw [h1] at hok
      cases h2 : interpolatedValues B ov with
      | error e => rw [h2] at hok; simp at hok
      | ok iI =>
        rw [h2] at hok
        simp only [Except.ok.injEq, Prod.mk.injEq] at hok
        obtain ⟨hM, hB1⟩ := hok
        constructor
        · rw [← hM]
          exact List.sorted_insertionSort frLe _
        · rw [← hM, List.length_insertionSort, List.length_append]
          obtain ⟨u, hu⟩ := findOverlap_suffix A B ov hfo
          have hov_le : ov.length ≤ A.length := by
            rw [hu, List.length_append]
            omega
          rw [List.length_append, bumpValues_length, bumpValues_length, List.length_take]
          omega

/-- Witness for C6 on concrete overlapping curves. -/
theorem merge_count_sorted_witness :
    sortedLe [⟨0, 0⟩, ⟨1, 1⟩, ⟨2, 3⟩, ⟨3, 4⟩] ∧
      ([⟨0, 0⟩, ⟨1, 1⟩, ⟨2, 3⟩, ⟨3, 4⟩] : List Keyframe).length =
        ([⟨0, 0⟩, ⟨2, 2⟩] : List Keyframe).length +
          ([⟨1, 0⟩, ⟨3, 2⟩] : List Keyframe).length :=
  merge_count_sorted [⟨0, 0⟩, ⟨2, 2⟩] [⟨1, 0⟩, ⟨3, 2⟩]
    [⟨0, 0⟩, ⟨1, 1⟩, ⟨2, 3⟩, ⟨3, 4⟩] [⟨1, 1⟩, ⟨3, 4⟩]
    (by norm_num [sortedLe, frLe]) (by norm_num [sortedLe, frLe])
    (by norm_num [addKeyframes, findOverlap, scanRev, getValue, intervalLoop, interval,
      interpolatedValues, bumpValues, frLe, List.insertionSort, List.orderedInsert])

theorem findOverlap_ok_eq (A B : List Keyframe) (hane : A ≠ []) (hbne : B ≠ [])
    (h0 : ¬ (B.head hbne).frame < (A.head hane).frame) :
    findOverlap A B = .ok ((scanRev (B.head hbne).frame false A.reverse).reverse) := by
  cases A with
  | nil => exact absurd rfl hane
  | cons a l1 =>
    cases B with
    | nil => exact absurd rfl hbne
    | cons b l2 => exact findOverlap_ok_cons a b l1 l2 (by simpa using h0)

/-- C1 (amended): on non-empty strictly-sorted curves satisfying the
precondition and genuinely overlapping (the second curve starts strictly
before the first one ends), whenever `merge` returns normally, the merged
curve's value at every original sample time of either curve lying within
both curves' domains equals the sum of the two curves' original
piecewise-linear values there, exactly, in rational arithmetic. -/
theorem merge_sum_correct (A B M B1 : List Keyframe) (t : ℚ)
    (a0 al bh bl : Keyframe)
    (hA : sortedLt A) (hB : sortedLt B)
    (hA0 : A.head? = some a0) (hAl : A.getLast? = some al)
    (hB0 : B.head? = some bh) (hBl : B.getLast? = some bl)
    (h0 : a0.frame ≤ bh.frame)
    (hov : bh.frame < al.frame)
    (_htA1 : a0.frame ≤ t) (htA2 : t ≤ al.frame)
    (htB1 : bh.frame ≤ t) (htB2 : t ≤ bl.frame)
    (ht : (∃ k ∈ A, k.frame = t) ∨ (∃ k ∈ B, k.frame = t))
    (hok : addKeyframes A B = .ok (M, B1)) :
    specValueAt M t = specValueAt A t + specValueAt B t := by
  have hane : A ≠ [] := by intro h; rw [h] at hA0; simp at hA0
  have hbne : B ≠ [] := by intro h; rw [h] at hB0; simp at hB0
  have ha0 : A.head hane = a0 := by
    rw [List.head?_eq_head hane] at hA0
    exact Option.some_inj.mp hA0
  have hal : A.getLast hane = al := by
    rw [List.getLast?_eq_getLast A hane] at hAl
    exact Option.some_inj.mp hAl
  have hbh : B.head hbne = bh := by
    rw [List.head?_eq_head hbne] at hB0
    exact Option.some_inj.mp hB0
  have hbl : B.getLast hbne = bl := by
    rw [List.getLast?_eq_getLast B hbne] at hBl
    exact Option.some_inj.mp hBl
  cases hfo : findOverlap A B with
  | error e => simp [addKeyframes, hfo] at hok
  | ok ov =>
    simp only [addKeyframes, hfo] at hok
    cases h1 : interpolatedValues ov B with
    | error e => rw [h1] at hok; simp at hok
    | ok nI =>
      rw [h1] at hok
      cases h2 : interpolatedValues B ov with
      | error e => rw [h2] at hok; simp at hok
      | ok iI =>
        rw [h2] at hok
        simp only [Except.ok.injEq, Prod.mk.injEq] at hok
        obtain ⟨hM, hB1⟩ := hok
        -- identify the overlap with its boundary/strict split
        have hfo2 := findOverlap_ok_eq A B hane hbne
          (by rw [ha0, hbh]; exact not_lt.mpr h0)
        rw [hfo] at hfo2
        injection hfo2 with hov_eq
        rw [hbh] at hov_eq
        obtain ⟨boundary, g, hovbg, hbdle, hgne, hovlast⟩ :=
          overlap_structure A bh.frame hane (by rw [ha0]; exact h0) (by rw [hal]; exact hov)
        have hov_cons : ov = boundary :: g := hov_eq.trans hovbg
        subst hov_cons
        obtain ⟨u, hu⟩ := findOverlap_suffix A B (boundary :: g) hfo
        have hA2 : sortedLt (u ++ (boundary :: g)) := by rw [← hu]; exact hA
        have hrel : ∀ x ∈ u, ∀ y ∈ (boundary :: g), x.frame < y.frame :=
          (List.pairwise_append.mp hA2).2.2
        have hsortov : sortedLt (boundary :: g) := (List.pairwise_append.mp hA2).2.1
        have hovne : (boundary :: g) ≠ [] := List.cons_ne_nil boundary g
        have hlen2 : 2 ≤ (boundary :: g).length := by
          cases g with
          | nil => exact absurd rfl hgne
          | cons g1 g2 => simp
        have hhd : ((boundary :: g).head hovne).frame ≤ t := le_trans hbdle htB1
        have hovlast2 : (boundary :: g).getLast hovne = al := by
          rw [List.getLast?_eq_getLast (boundary :: g) hovne] at hovlast
          rw [Option.some_inj.mp hovlast]
          exact hal
        have htlast : t ≤ ((boundary :: g).getLast hovne).frame := by
          rw [hovlast2]
          exact htA2
        -- the code's bracket evaluation agrees with the spec evaluator on ov
        obtain ⟨k1, k2, hp, hval⟩ := interval_agree (boundary :: g) t
          (sortedLe_of_sortedLt _ hsortov) hlen2 hovne hhd htlast
        have hsuf := specValueAt_suffix t u (boundary :: g) hA2 hovne hhd
        rw [← hu] at hsuf
        have hE1 : bracketValue (boundary :: g) t = specValueAt A t := by
          simp only [bracketValue, hp]
          rw [hval]
          exact hsuf.symm
        -- interpolated-value lists are maps
        obtain ⟨hnIm, _⟩ := interpolatedValues_ok_map (boundary :: g) hovne B nI h1
        obtain ⟨hiIm, hiIall⟩ := interpolatedValues_ok_map B hbne (boundary :: g) iI h2
        have hnext1 : bumpValues B nI =
            B.map (fun k => ⟨k.frame, k.value + bracketValue (boundary :: g) k.frame⟩) := by
          rw [hnIm, bumpValues_map]
        have hov1 : bumpValues (boundary :: g) iI =
            (boundary :: g).map (fun k => ⟨k.frame, k.value + bracketValue B k.frame⟩) := by
          rw [hiIm, bumpValues_map]
        have htake : A.take (A.length - (boundary :: g).length) = u := by
          rw [hu]
          have hlen : (u ++ (boundary :: g)).length - (boundary :: g).length = u.length := by
            simp [List.length_append]
          rw [hlen]
          exact List.take_left u (boundary :: g)
        -- any knot of A at time t lies in the overlap
        have hknotA : ∀ s1 ∈ A, s1.frame = t → s1 ∈ (boundary :: g) := by
          intro s1 hs1 hf1
          rw [hu] at hs1
          rcases List.mem_append.mp hs1 with hsu | hsov
          · exfalso
            have hlt := hrel s1 hsu boundary (List.mem_cons_self boundary g)
            have hlt2 : t < t := by
              calc t = s1.frame := hf1.symm
                _ < boundary.frame := hlt
                _ ≤ bh.frame := hbdle
                _ ≤ t := htB1
            exact lt_irrefl t hlt2
          · exact hsov
        -- the bracket evaluation in B agrees with the spec evaluator at an
        -- overlap knot time (the singleton case is excluded by normal return)
        have hE2 : (∃ s1, s1 ∈ (boundary :: g) ∧ s1.frame = t) →
            bracketValue B t = specValueAt B t := by
          rintro ⟨s1, hs1ov, hs1f⟩
          obtain ⟨j1, j2, hpB⟩ := hiIall s1 hs1ov
          rw [hs1f] at hpB
          cases B with
          | nil => exact absurd rfl hbne
          | cons bb l2 =>
            have hbbh : bb = bh := by simpa using hbh
            cases l2 with
            | nil =>
              exfalso
              have hbbl : bb = bl := by
                have : ([bb] : List Keyframe).getLast (by simp) = bb := rfl
                rw [this] at hbl
                exact hbl
              have hteq : t = bb.frame := by
                apply le_antisymm
                · rw [hbbl]; exact htB2
                · rw [hbbh]; exact htB1
              rw [hteq] at hpB
              have hglbb : (([bb] : List Keyframe).getLast (List.cons_ne_nil bb [])) = bb := rfl
              simp only [interval, hglbb] at hpB
              rw [if_neg (lt_irrefl bb.frame), if_neg (lt_irrefl bb.frame)] at hpB
              simp [intervalLoop] at hpB
            | cons b2 l3 =>
              have hhdB : ((bb :: b2 :: l3).head (List.cons_ne_nil bb (b2 :: l3))).frame ≤ t := by
                show bb.frame ≤ t
                rw [hbbh]
                exact htB1
              have hlastB : t ≤ ((bb :: b2 :: l3).getLast
                  (List.cons_ne_nil bb (b2 :: l3))).frame := by
                rw [hbl]
                exact htB2
              obtain ⟨j1', j2', hp', hval'⟩ := interval_agree (bb :: b2 :: l3) t
                (sortedLe_of_sortedLt _ hB) (by simp) (List.cons_ne_nil bb (b2 :: l3))
                hhdB hlastB
              simp only [bracketValue, hp']
              exact hval'
        -- every sample of the pre-sort merged list at time t carries the sum
        have hall : ∀ k,
            k ∈ (A.take (A.length - (boundary :: g).length) ++
              bumpValues (boundary :: g) iI ++ bumpValues B nI) →
            k.frame = t → k.value = specValueAt A t + specValueAt B t := by
          intro k hk hkf
          rw [htake] at hk
          rcases List.mem_append.mp hk with hk1 | hkB
          · rcases List.mem_append.mp hk1 with hku | hkov
            · exfalso
              have hlt := hrel k hku boundary (List.mem_cons_self boundary g)
              have hlt2 : t < t := by
                calc t = k.frame := hkf.symm
                  _ < boundary.frame := hlt
                  _ ≤ bh.frame := hbdle
                  _ ≤ t := htB1
              exact lt_irrefl t hlt2
            · rw [hov1] at hkov
              obtain ⟨s1, hs1ov, hs1eq⟩ := List.mem_map.mp hkov
              have hs1f : s1.frame = t := by rw [← hs1eq] at hkf; exact hkf
              have hs1A : s1 ∈ A := by
                rw [hu]
                exact List.mem_append_right u hs1ov
              have hsv : specValueAt A t = s1.value :=
                specValueAt_unique A t s1.value (sortedLe_of_sortedLt A hA)
                  ⟨s1, hs1A, hs1f⟩
                  (fun k' hk' hk'f => congrArg Keyframe.value
                    (sortedLt_frame_inj A hA k' hk' s1 hs1A (by rw [hk'f, hs1f])))
              have hb2 : bracketValue B s1.frame = specValueAt B t := by
                rw [hs1f]
                exact hE2 ⟨s1, hs1ov, hs1f⟩
              rw [← hs1eq]
              show s1.value + bracketValue B s1.frame = _
              rw [hb2, hsv]
          · rw [hnext1] at hkB
            obtain ⟨kb, hkbB, hkbeq⟩ := List.mem_map.mp hkB
            have hkbf : kb.frame = t := by rw [← hkbeq] at hkf; exact hkf
            have hkbv : specValueAt B t = kb.value :=
              specValueAt_unique B t kb.value (sortedLe_of_sortedLt B hB)
                ⟨kb, hkbB, hkbf⟩
                (fun k' hk' hk'f => congrArg Keyframe.value
                  (sortedLt_frame_inj B hB k' hk' kb hkbB (by rw [hk'f, hkbf])))
            have hbo : bracketValue (boundary :: g) kb.frame = specValueAt A t := by
              rw [hkbf]
              exact hE1
            rw [← hkbeq]
            show kb.value + bracketValue (boundary :: g) kb.frame = _
            rw [hbo, hkbv]
            exact add_comm _ _
        -- a sample at time t exists in the pre-sort merged list
        have hex : ∃ k, k ∈ (A.take (A.length - (boundary :: g).length) ++
            bumpValues (boundary :: g) iI ++ bumpValues B nI) ∧ k.frame = t := by
          rcases ht with ⟨s1, hs1A, hs1f⟩ | ⟨kb, hkbB, hkbf⟩
          · have hs1ov := hknotA s1 hs1A hs1f
            refine ⟨⟨s1.frame, s1.value + bracketValue B s1.frame⟩, ?_, hs1f⟩
            apply List.mem_append_left
            apply List.mem_append_right
            rw [hov1]
            exact List.mem_map.mpr ⟨s1, hs1ov, rfl⟩
          · refine ⟨⟨kb.frame, kb.value + bracketValue (boundary :: g) kb.frame⟩, ?_, hkbf⟩
            apply List.mem_append_right
            rw [hnext1]
            exact List.mem_map.mpr ⟨kb, hkbB, rfl⟩
        have hMperm : M.Perm (A.take (A.length - (boundary :: g).length) ++
            bumpValues (boundary :: g) iI ++ bumpValues B nI) := by
          rw [← hM]
          exact List.perm_insertionSort frLe _
        have hMsort : sortedLe M := by
          rw [← hM]
          exact List.sorted_insertionSort frLe _
        apply specValueAt_unique M t _ hMsort
        · obtain ⟨k, hk, hkf⟩ := hex
          exact ⟨k, hMperm.mem_iff.mpr hk, hkf⟩
        · intro k hk hkf
          exact hall k (hMperm.mem_iff.mp hk) hkf

/-- C1 (refuting the original claim): touching-endpoint counterexample.
With `inserted = [(0,1),(5,2)]` and `next = [(5,3),(10,4)]` — both
well-formed, sorted, satisfying the precondition — `merge` returns
normally, and `t = 5` is an original sample time of both curves lying in
both domains, yet the merged curve's value at `5` is `2` (inserted's value
alone) instead of `2 + 3 = 5`: the two curves only touch, the overlap scan
finds nothing, and no summation happens at the seam. -/
theorem merge_sum_touching_cex :
    sortedLt [⟨0, 1⟩, ⟨5, 2⟩] ∧ sortedLt [⟨5, 3⟩, ⟨10, 4⟩] ∧
    ((0 : ℚ) ≤ 5) ∧
    addKeyframes [⟨0, 1⟩, ⟨5, 2⟩] [⟨5, 3⟩, ⟨10, 4⟩] =
      .ok ([⟨0, 1⟩, ⟨5, 2⟩, ⟨5, 3⟩, ⟨10, 4⟩], [⟨5, 3⟩, ⟨10, 4⟩]) ∧
    specValueAt [⟨0, 1⟩, ⟨5, 2⟩, ⟨5, 3⟩, ⟨10, 4⟩] 5 = 2 ∧
    specValueAt [⟨0, 1⟩, ⟨5, 2⟩] 5 + specValueAt [⟨5, 3⟩, ⟨10, 4⟩] 5 = 5 ∧
    ((2 : ℚ) ≠ 5) := by
  refine ⟨by norm_num [sortedLt], by norm_num [sortedLt], by norm_num, ?_, ?_, ?_, by norm_num⟩
  · norm_num [addKeyframes, findOverlap, scanRev, getValue, intervalLoop, interval,
      interpolatedValues, bumpValues, frLe, List.insertionSort, List.orderedInsert]
  · norm_num [specValueAt, getValue]
  · norm_num [specValueAt, getValue]

/-- Witness for C1 (amended) on concrete genuinely-overlapping curves. -/
theorem merge_sum_correct_witness :
    specValueAt [⟨0, 0⟩, ⟨1, 1⟩, ⟨2, 3⟩, ⟨3, 4⟩] 2 =
      specValueAt [⟨0, 0⟩, ⟨2, 2⟩] 2 + specValueAt [⟨1, 0⟩, ⟨3, 2⟩] 2 :=
  merge_sum_correct [⟨0, 0⟩, ⟨2, 2⟩] [⟨1, 0⟩, ⟨3, 2⟩]
    [⟨0, 0⟩, ⟨1, 1⟩, ⟨2, 3⟩, ⟨3, 4⟩] [⟨1, 1⟩, ⟨3, 4⟩] 2
    ⟨0, 0⟩ ⟨2, 2⟩ ⟨1, 0⟩ ⟨3, 2⟩
    (by norm_num [sortedLt]) (by norm_num [sortedLt])
    rfl rfl rfl rfl
    (by norm_num) (by norm_num) (by norm_num) (by norm_num) (by norm_num) (by norm_num)
    (Or.inl ⟨⟨2, 2⟩, List.mem_cons_of_mem _ (List.mem_cons_self _ _), rfl⟩)
    (by norm_num [addKeyframes, findOverlap, scanRev, getValue, intervalLoop, interval,
      interpolatedValues, bumpValues, frLe, List.insertionSort, List.orderedInsert])

/-- C2 (refuting the spec's expected list): on the end-to-end scenario the
code produces `(33, 3)` — the exact sum of the two curves at frame 33 —
while the claimed expected output has `(33, 1.2)`; the two lists differ. -/
theorem e2e_scenario_cex :
    addKeyframes [⟨0, 0⟩, ⟨15, 5⟩, ⟨18, 5⟩, ⟨33, 0⟩] [⟨9, 0⟩, ⟨24, 5⟩, ⟨27, 5⟩, ⟨42, 0⟩] =
      .ok ([⟨0, 0⟩, ⟨9, 3⟩, ⟨15, 7⟩, ⟨18, 8⟩, ⟨24, 8⟩, ⟨27, 7⟩, ⟨33, 3⟩, ⟨42, 0⟩],
           [⟨9, 3⟩, ⟨24, 8⟩, ⟨27, 7⟩, ⟨42, 0⟩]) ∧
    ([⟨0, 0⟩, ⟨9, 3⟩, ⟨15, 7⟩, ⟨18, 8⟩, ⟨24, 8⟩, ⟨27, 7⟩, ⟨33, 3⟩, ⟨42, 0⟩] :
        List Keyframe) ≠
      [⟨0, 0⟩, ⟨9, 3⟩, ⟨15, 7⟩, ⟨18, 8⟩, ⟨24, 8⟩, ⟨27, 7⟩, ⟨33, 6 / 5⟩, ⟨42, 0⟩] := by
  constructor
  · norm_num [addKeyframes, findOverlap, scanRev, getValue, intervalLoop, interval,
      interpolatedValues, bumpValues, frLe, List.insertionSort, List.orderedInsert]
  · intro h
    norm_num [Keyframe.mk.injEq] at h

/-- C2 (amended): the exact output of `merge` on the end-to-end scenario,
identical to the claimed list except that the sample at frame 33 carries
value `3` (the true sum `A(33) + B(33) = 0 + 3`). -/
theorem e2e_scenario_actual :
    addKeyframes [⟨0, 0⟩, ⟨15, 5⟩, ⟨18, 5⟩, ⟨33, 0⟩] [⟨9, 0⟩, ⟨24, 5⟩, ⟨27, 5⟩, ⟨42, 0⟩] =
      .ok ([⟨0, 0⟩, ⟨9, 3⟩, ⟨15, 7⟩, ⟨18, 8⟩, ⟨24, 8⟩, ⟨27, 7⟩, ⟨33, 3⟩, ⟨42, 0⟩],
           [⟨9, 3⟩, ⟨24, 8⟩, ⟨27, 7⟩, ⟨42, 0⟩]) := by
  norm_num [addKeyframes, findOverlap, scanRev, getValue, intervalLoop, interval,
    interpolatedValues, bumpValues, frLe, List.insertionSort, List.orderedInsert]
